import Mathlib

/-! Verification of the collector scoring and proportional split-allocation
engine of the collector-split-tool repository against its specification.

Sources embedded below:
* `src/frontend/src/components/SplitConfiguration.tsx` — namespace `V1`
  (`calculateWeightedShares`, `balanceShares`, `validateSplits`,
  `handleRemoveBelowThreshold`);
* `src/unnamed/part_012` (a second revision of the same component) —
  namespace `V2` (`balanceShares` with share-value grouping,
  `calculateWeightedShares`, `handleAllowLowShares`,
  `handleRemoveBelowThreshold`);
* `src/frontend/src/services/network.ts` — namespace `NetworkService`
  (the score computation of `fetchRealCollectorData`).

Numbers: the TypeScript source computes with IEEE doubles over decimal
percentages and rounds with `Number(x.toFixed(2))` resp.
`Math.round(x * 10) / 10`.  We embed the numbers as exact rationals and the
roundings as round-half-up to two (resp. one) decimal places.  Every concrete
input used in a theorem keeps all intermediate values away from decimal
representation boundaries, where the rational model and double precision
agree.

Batteries marks `Rat.add`, `Rat.mul`, `Rat.sub`, `Rat.inv` as irreducible,
which prevents kernel evaluation inside `decide`.  The embedding therefore
computes with the `Rat.divInt`-based operations `qadd`, `qsub`, `qmul`,
`qdiv` below; the bridge lemmas `qadd_eq` … `round2_eq` rewrite them to the
ordinary field operations for the general theorems. -/

/-- addition on `ℚ`, kernel-reducible; equal to `+` by `qadd_eq`. -/
def qadd (a b : ℚ) : ℚ := Rat.divInt (a.num * b.den + b.num * a.den) (a.den * b.den)

/-- subtraction on `ℚ`, kernel-reducible; equal to `-` by `qsub_eq`. -/
def qsub (a b : ℚ) : ℚ := Rat.divInt (a.num * b.den - b.num * a.den) (a.den * b.den)

/-- multiplication on `ℚ`, kernel-reducible; equal to `*` by `qmul_eq`. -/
def qmul (a b : ℚ) : ℚ := Rat.divInt (a.num * b.num) (a.den * b.den)

/-- division on `ℚ`, kernel-reducible; equal to `/` by `qdiv_eq`
(both send division by zero to zero). -/
def qdiv (a b : ℚ) : ℚ := Rat.divInt (a.num * b.den) (a.den * b.num)

theorem qadd_eq (a b : ℚ) : qadd a b = a + b := by
  have ha : ((a.den : ℚ)) ≠ 0 := by exact_mod_cast a.den_nz
  have hb : ((b.den : ℚ)) ≠ 0 := by exact_mod_cast b.den_nz
  conv_rhs => rw [← Rat.num_div_den a, ← Rat.num_div_den b]
  rw [qadd, Rat.divInt_eq_div]
  push_cast
  field_simp

theorem qsub_eq (a b : ℚ) : qsub a b = a - b := by
  have ha : ((a.den : ℚ)) ≠ 0 := by exact_mod_cast a.den_nz
  have hb : ((b.den : ℚ)) ≠ 0 := by exact_mod_cast b.den_nz
  conv_rhs => rw [← Rat.num_div_den a, ← Rat.num_div_den b]
  rw [qsub, Rat.divInt_eq_div]
  push_cast
  field_simp
  ring

theorem qmul_eq (a b : ℚ) : qmul a b = a * b := by
  have ha : ((a.den : ℚ)) ≠ 0 := by exact_mod_cast a.den_nz
  have hb : ((b.den : ℚ)) ≠ 0 := by exact_mod_cast b.den_nz
  conv_rhs => rw [← Rat.num_div_den a, ← Rat.num_div_den b]
  rw [qmul, Rat.divInt_eq_div]
  push_cast
  field_simp

theorem qdiv_eq (a b : ℚ) : qdiv a b = a / b := by
  rcases eq_or_ne b 0 with rfl | hbz
  · simp [qdiv, Rat.divInt_eq_div]
  · have ha : ((a.den : ℚ)) ≠ 0 := by exact_mod_cast a.den_nz
    have hb : ((b.den : ℚ)) ≠ 0 := by exact_mod_cast b.den_nz
    have hbn : ((b.num : ℚ)) ≠ 0 := by
      exact_mod_cast Rat.num_ne_zero.mpr hbz
    conv_rhs => rw [← Rat.num_div_den a, ← Rat.num_div_den b]
    rw [qdiv, Rat.divInt_eq_div]
    push_cast
    rw [div_div_div_eq]

theorem qfloor_eq (a : ℚ) : a.floor = ⌊a⌋ := by
  rw [Rat.floor_def', Rat.floor_def]

/-- model of `Number(x.toFixed(2))`: round half up to two decimal places. -/
def round2 (x : ℚ) : ℚ := Rat.divInt (Rat.floor (qadd (qmul x 100) (Rat.divInt 1 2))) 100

/-- model of `Math.round(x * 10) / 10`: round half up to one decimal place. -/
def round1 (x : ℚ) : ℚ := Rat.divInt (Rat.floor (qadd (qmul x 10) (Rat.divInt 1 2))) 10

theorem round2_eq (x : ℚ) : round2 x = ((round (x * 100) : ℤ) : ℚ) / 100 := by
  rw [round2, Rat.divInt_eq_div, qfloor_eq, qadd_eq, qmul_eq, round_eq]
  norm_num [Rat.divInt_eq_div]

theorem round1_eq (x : ℚ) : round1 x = ((round (x * 10) : ℤ) : ℚ) / 10 := by
  rw [round1, Rat.divInt_eq_div, qfloor_eq, qadd_eq, qmul_eq, round_eq]
  norm_num [Rat.divInt_eq_div]

/-- the literal `0.01` of the source. -/
def HUNDREDTH : ℚ := Rat.divInt 1 100

theorem hundredth_eq : HUNDREDTH = 1 / 100 := by
  rw [HUNDREDTH, Rat.divInt_eq_div]
  norm_num

/-- `MIN_COLLECTORS = 3` (SplitConfiguration.tsx line 66, part_012 line 288). -/
def MIN_COLLECTORS : ℕ := 3

/-- `MAX_COLLECTORS = 1000`. -/
def MAX_COLLECTORS : ℕ := 1000

/-- `MIN_SHARE = 0.1` — the OBJKT minimum threshold. -/
def MIN_SHARE : ℚ := Rat.divInt 1 10

/-- `MAX_SHARE = 50.0`. -/
def MAX_SHARE : ℚ := 50

/-- `BURN_ADDRESS` constant of both component revisions. -/
def BURN_ADDRESS : String := "tz1burnburnburnburnburnburnburjAYjjX"

/-- one collector row as used by the split-configuration component
(src/frontend/src/types, unnamed/part_003): only the fields the split
computation reads.  The optional `share` field read as `c.share || 0` is
modelled as a total field defaulting to `0`. -/
structure Collector where
  address : String
  score : ℚ
  share : ℚ
deriving Repr, DecidableEq

/-- model of `reduce((sum, c) => sum + (c.share || 0), 0)`. -/
def shareSum (cs : List Collector) : ℚ := cs.foldl (fun s c => qadd s c.share) 0

/-- model of `reduce((sum, c) => sum + c.score, 0)`. -/
def scoreSum (cs : List Collector) : ℚ := cs.foldl (fun s c => qadd s c.score) 0

/-- insertion step of a stable sort: `a` is placed before the first element
not strictly preceding it. -/
def stableInsert (le : α → α → Bool) (a : α) : List α → List α
  | [] => [a]
  | b :: l => if le b a && !(le a b) then b :: stableInsert le a l else a :: b :: l

/-- stable sort; models `Array.prototype.sort` with a comparator (stable per
ECMAScript 2019), where `le x y` means the comparator puts `x` not after `y`. -/
def stableSort (le : α → α → Bool) (l : List α) : List α := l.foldr (stableInsert le) []

/-- model of a JavaScript `result[i] = v` element write where the computed
index may be negative: a negative index only adds a stray property and leaves
the array elements unchanged. -/
def setAt (l : List Collector) (i : ℤ) (v : Collector) : List Collector :=
  if i < 0 then l else l.set i.toNat v

/-- one iteration of the `lastCollectors.forEach` of the fallback branch of
`balanceShares`: the last listed collector absorbs the remaining difference,
the others get `toFixed2(difference / numToAdjust)`, and the share write goes
to index `result.length - numToAdjust + index`. -/
def fallbackStep (numToAdjust : ℕ) (adjustmentPerCollector : ℚ) (lastLen : ℕ)
    (acc : List Collector × ℚ) (ic : ℕ × Collector) : List Collector × ℚ :=
  let adjustment := if ic.1 = lastLen - 1 then acc.2 else adjustmentPerCollector
  (setAt acc.1 ((acc.1.length : ℤ) - (numToAdjust : ℤ) + (ic.1 : ℤ))
     { ic.2 with share := round2 (qadd ic.2.share adjustment) },
   round2 (qsub acc.2 adjustment))

/-- the last-one-or-two-collectors fallback of `balanceShares`
(SplitConfiguration.tsx lines 212-230; identical fallback branch in
unnamed/part_012 lines 358-377).  The JavaScript `forEach` mutates
`difference` and writes `result[result.length - numToAdjust + index]`;
with a single collector and `numToAdjust = 2` that index is `-1`. -/
def fallbackAdjust (result : List Collector) (difference : ℚ) : List Collector :=
  let numToAdjust : ℕ := if HUNDREDTH < |difference| then 2 else 1
  let adjustmentPerCollector := round2 (qdiv difference (numToAdjust : ℚ))
  let lastCollectors := result.drop (result.length - numToAdjust)
  (lastCollectors.enum.foldl
    (fallbackStep numToAdjust adjustmentPerCollector lastCollectors.length)
    (result, difference)).1

namespace V1

/-- fuel-indexed model of the `while (result.length > MIN_COLLECTORS)`
trimming loop of the `currentMinShare === 0` branch of `balanceShares`
(SplitConfiguration.tsx lines 173-188).  Every iteration drops exactly one
collector, so fuel `result.length` suffices; the loop body recomputes
`difference` against the target after each removal. -/
def trimLoop (targetTotal : ℚ) : ℕ → List Collector → ℚ → List Collector × ℚ
  | 0, result, difference => (result, difference)
  | fuel + 1, result, difference =>
    if MIN_COLLECTORS < result.length then
      if result.any (fun c =>
          decide (qadd c.share (qdiv difference (result.length : ℚ)) < HUNDREDTH)) then
        let result2 := result.dropLast
        trimLoop targetTotal fuel result2 (round2 (qsub targetTotal (shareSum result2)))
      else (result, difference)
    else (result, difference)

/-- model of `balanceShares` from SplitConfiguration.tsx lines 151-233.
The component state `currentMinShare` is passed explicitly.  The local
`minViableShare` of the source is never read and is omitted. -/
def balanceShares (currentMinShare : ℚ) (collectors : List Collector)
    (targetTotal : ℚ) : List Collector :=
  if collectors.length = 0 then collectors else
  let currentTotal := shareSum collectors
  let difference := round2 (qsub targetTotal currentTotal)
  if |difference| < HUNDREDTH then collectors else
  if currentMinShare = 0 then
    let result := stableSort (fun a b => decide (b.share ≤ a.share)) collectors
    let rd := trimLoop targetTotal result.length result difference
    let adjustmentPerCollector := round2 (qdiv rd.2 (rd.1.length : ℚ))
    let result2 := rd.1.map (fun c => { c with share := round2 (qadd c.share adjustmentPerCollector) })
    let remainingDiff := round2 (qsub targetTotal (shareSum result2))
    if HUNDREDTH ≤ |remainingDiff| ∧ 0 < result2.length then
      match result2.getLast? with
      | some lastC =>
          result2.set (result2.length - 1) { lastC with share := round2 (qadd lastC.share remainingDiff) }
      | none => result2
    else result2
  else
    fallbackAdjust collectors difference

end V1

namespace V2

/-- the share group pushed for key `v` into the insertion-ordered
`Map<number, Collector[]>` of `balanceShares` (unnamed/part_012 lines
317-324): the collectors with that share, in `result` order. -/
def groupFor (result : List Collector) (v : ℚ) : List Collector :=
  result.filter (fun c => decide (c.share = v))

/-- one iteration of the adjustment loop of the grouped branch of the V2
`balanceShares` (unnamed/part_012 lines 346-357): locate the group member by
address and overwrite its share with the already-rounded `newShare`. -/
def groupAdjustStep (newShare : ℚ) (r : List Collector) (c : Collector) : List Collector :=
  match r.findIdx? (fun x => decide (x.address = c.address)) with
  | some i =>
      match r.get? i with
      | some x => r.set i { x with share := newShare }
      | none => r
  | none => r

/-- model of `balanceShares` from unnamed/part_012 lines 303-381: group the
collectors by identical share value, pick the highest-valued group with at
least `ceil(|difference| / 0.01)` members, and set the share of its first
`adjustmentsNeeded` members (located again by address) to
`toFixed2(targetShare + 0.01)`; fall back to the last-collectors adjustment
when no group is large enough. -/
def balanceShares (collectors : List Collector) (targetTotal : ℚ) : List Collector :=
  if collectors.length = 0 then collectors else
  let currentTotal := shareSum collectors
  let difference := round2 (qsub targetTotal currentTotal)
  if |difference| < HUNDREDTH then collectors else
  let result := collectors
  let sortedShares := stableSort (fun a b => decide (b ≤ a)) ((result.map (fun c => c.share)).dedup)
  let needed := (Rat.ceil (qdiv |difference| HUNDREDTH)).toNat
  match sortedShares.find? (fun v => decide (needed ≤ (groupFor result v).length)) with
  | some targetShare =>
      ((groupFor result targetShare).take needed).foldl
        (groupAdjustStep (round2 (qadd targetShare HUNDREDTH))) result
  | none => fallbackAdjust result difference

end V2

/-- the creator/burn filter at the top of `calculateWeightedShares`
(SplitConfiguration.tsx lines 83-86, unnamed/part_012 lines 393-396). -/
def validCollectors (localCreatorAddress : Option String)
    (collectors : List Collector) : List Collector :=
  collectors.filter (fun c =>
    (match localCreatorAddress with
     | some a => decide (c.address ≠ a)
     | none => true) && decide (c.address ≠ BURN_ADDRESS))

/-- first share pass of `calculateWeightedShares`: share of each collector is
`(score / totalScore) * t` rounded to two decimals (SplitConfiguration.tsx
lines 120-128, unnamed/part_012 lines 430-438; the renormalisation pass of
lines 139-144 resp. 449-454 is the same map against the reduced total). -/
def rawWeightedShares (valid : List Collector) (totalScore t : ℚ) : List Collector :=
  valid.map (fun c => { c with share := round2 (qmul (qdiv c.score totalScore) t) })

/-- model of `calculateWeightedShares`, identical in SplitConfiguration.tsx
lines 81-148 and unnamed/part_012 lines 391-458 up to which `balanceShares`
it closes over, passed here as `bal`.  The component state
`localCreatorAddress` is passed explicitly. -/
def calculateWeightedSharesCore (bal : List Collector → ℚ → List Collector)
    (localCreatorAddress : Option String) (collectors : List Collector)
    (totalSharePercentage : ℚ) : List Collector :=
  let valid := validCollectors localCreatorAddress collectors
  if valid.length = 0 then [] else
  let totalScore := scoreSum valid
  if totalScore = 0 then
    let evenShare := qdiv totalSharePercentage (valid.length : ℚ)
    if evenShare < HUNDREDTH then
      let maxCollectors := (Rat.floor (qdiv totalSharePercentage HUNDREDTH)).toNat
      let limited := valid.take (max MIN_COLLECTORS maxCollectors)
      let adjustedEvenShare := qdiv totalSharePercentage (limited.length : ℚ)
      bal (limited.map (fun c => { c with share := round2 adjustedEvenShare })) totalSharePercentage
    else
      bal (valid.map (fun c => { c with share := round2 evenShare })) totalSharePercentage
  else
    let result0 := rawWeightedShares valid totalScore totalSharePercentage
    let result1 := stableSort (fun a b => decide (b.share ≤ a.share)) result0
    let result2 := (result1.enum.filter
        (fun ic => decide (ic.1 < MIN_COLLECTORS) || decide (HUNDREDTH ≤ ic.2.share))).map
      (fun ic => ic.2)
    let remainingTotalScore := scoreSum result2
    let result3 := rawWeightedShares result2 remainingTotalScore totalSharePercentage
    bal result3 totalSharePercentage

/-- `calculateWeightedShares` of SplitConfiguration.tsx (closing over the V1
`balanceShares` and the `currentMinShare` state). -/
def V1.calculateWeightedShares (creator : Option String) (currentMinShare : ℚ)
    (cs : List Collector) (t : ℚ) : List Collector :=
  calculateWeightedSharesCore (V1.balanceShares currentMinShare) creator cs t

/-- `calculateWeightedShares` of unnamed/part_012 (closing over the V2
`balanceShares`). -/
def V2.calculateWeightedShares (creator : Option String)
    (cs : List Collector) (t : ℚ) : List Collector :=
  calculateWeightedSharesCore V2.balanceShares creator cs t

/-- the distinct template messages `validateSplits` can return; the source
interpolates the numeric bounds into the strings, which is presentation and
kept abstract here. -/
inductive ValidationMsg
  | minCollectorsRequired
  | maxCollectorsAllowed
  | totalShareMismatch
  | shareOutOfBounds
  | noMessage
deriving Repr, DecidableEq

/-- the `SplitValidation` record of SplitConfiguration.tsx lines 47-50. -/
structure SplitValidation where
  isValid : Bool
  message : ValidationMsg
deriving Repr, DecidableEq

/-- model of `validateSplits` (SplitConfiguration.tsx lines 295-329): four
checks tried in order, returning at the first failure. -/
def validateSplits (selectedCollectors : List Collector)
    (collectorTotalShare currentMinShare : ℚ) : SplitValidation :=
  if selectedCollectors.length < MIN_COLLECTORS then ⟨false, .minCollectorsRequired⟩
  else if MAX_COLLECTORS < selectedCollectors.length then ⟨false, .maxCollectorsAllowed⟩
  else
    let totalUsed := shareSum selectedCollectors
    if HUNDREDTH < |qsub totalUsed collectorTotalShare| then ⟨false, .totalShareMismatch⟩
    else if selectedCollectors.any (fun c =>
        decide (c.share < currentMinShare) || decide (MAX_SHARE < c.share)) then
      ⟨false, .shareOutOfBounds⟩
    else ⟨true, .noMessage⟩

/-- outcome of `handleAllowLowShares` (unnamed/part_012 lines 494-618): the
two early-return toasts, or the adjusted collector list it stores. -/
inductive AllowLowSharesResult
  | noActionNeeded
  | cannotAdjust
  | adjusted (cs : List Collector)
deriving Repr, DecidableEq

/-- model of `handleAllowLowShares` from unnamed/part_012 lines 494-618
(the redistribute-up strategy): raise every collector below `MIN_SHARE` to
exactly `MIN_SHARE`; reduce each above-threshold collector by
`min(shareNeeded * weight / totalWeight, share - MIN_SHARE)` where the weight
of position `i` in score-descending order is `N - i`; then, only if the
remaining imbalance exceeds `0.01`, run one proportional pass scaled by
`share - MIN_SHARE`.  The address-to-reduction `Map` is modelled by an
association list (all theorems use distinct addresses). -/
def handleAllowLowShares (selectedCollectors : List Collector)
    (collectorTotalShare : ℚ) : AllowLowSharesResult :=
  let belowThreshold := selectedCollectors.filter (fun c => decide (c.share < MIN_SHARE))
  if belowThreshold.length = 0 then .noActionNeeded else
  let shareNeeded := belowThreshold.foldl (fun s c => qadd s (qsub MIN_SHARE c.share)) 0
  let sortedCollectors := stableSort (fun a b => decide (b.score ≤ a.score)) selectedCollectors
  let aboveThreshold := sortedCollectors.filter (fun c => decide (MIN_SHARE < c.share))
  if aboveThreshold.length = 0 then .cannotAdjust else
  let collectorsWithWeights := aboveThreshold.enum.map (fun ic => (ic.2, aboveThreshold.length - ic.1))
  let totalWeight : ℚ := collectorsWithWeights.foldl (fun s cw => qadd s (cw.2 : ℚ)) 0
  let reductionPairs := collectorsWithWeights.map (fun cw =>
    (cw.1.address, min (qmul shareNeeded (qdiv (cw.2 : ℚ) totalWeight)) (qsub cw.1.share MIN_SHARE)))
  let newCollectors := selectedCollectors.map (fun c =>
    if c.share < MIN_SHARE then { c with share := MIN_SHARE }
    else
      match reductionPairs.find? (fun p => decide (p.1 = c.address)) with
      | some p => { c with share := round2 (qsub c.share p.2) }
      | none => c)
  let newTotal := shareSum newCollectors
  let difference := qsub collectorTotalShare newTotal
  if HUNDREDTH < |difference| then
    let adjustableCollectors := newCollectors.filter (fun c => decide (MIN_SHARE < c.share))
    if 0 < adjustableCollectors.length then
      let adjustableTotal := adjustableCollectors.foldl (fun s c => qadd s (qsub c.share MIN_SHARE)) 0
      .adjusted (newCollectors.map (fun c =>
        if MIN_SHARE < c.share then
          { c with share := round2 (qadd c.share (qmul difference (qdiv (qsub c.share MIN_SHARE) adjustableTotal))) }
        else c))
    else .adjusted newCollectors
  else .adjusted newCollectors

/-- outcome of `handleRemoveBelowThreshold`: the cannot-remove toast, or the
recomputed collector list it stores. -/
inductive RemoveBelowResult
  | cannotRemove
  | removed (cs : List Collector)
deriving Repr, DecidableEq

/-- model of `handleRemoveBelowThreshold` from unnamed/part_012 lines 620-653:
refuse when dropping the sub-`MIN_SHARE` collectors would leave fewer than the
hard-coded `MIN_COLLECTORS = 3`; otherwise drop them and re-run the V2
allocator (hence also the balancer) on the survivors. -/
def handleRemoveBelowThreshold (creator : Option String)
    (selectedCollectors : List Collector) (collectorTotalShare : ℚ) : RemoveBelowResult :=
  let belowThreshold := selectedCollectors.filter (fun c => decide (c.share < MIN_SHARE))
  let remainingCount := selectedCollectors.length - belowThreshold.length
  if remainingCount < MIN_COLLECTORS then .cannotRemove
  else .removed (V2.calculateWeightedShares creator
    (selectedCollectors.filter (fun c => decide (MIN_SHARE ≤ c.share))) collectorTotalShare)

/-- raw per-collector statistics used by the score computation of
`fetchRealCollectorData` (src/frontend/src/services/network.ts). -/
structure CollectorStats where
  address : String
  total_nfts : ℚ
  lifetime_spent : ℚ
  recent_purchases : ℚ
  score : ℚ
deriving Repr, DecidableEq

namespace NetworkService

/-- model of `Math.max(...values, 1)`: the metric maximum floored at 1. -/
def maxMetric (l : List ℚ) : ℚ := l.foldl max 1

/-- the weighted score formula of network.ts lines 524-527:
`nfts / maxNfts * 2.5 + recent / maxRecent * 2.0 + min(spent, maxSpent) / maxSpent * 0.5`. -/
def rawScore (maxNfts maxRecent maxSpent : ℚ) (c : CollectorStats) : ℚ :=
  qadd (qadd (qmul (qdiv c.total_nfts maxNfts) (Rat.divInt 5 2))
             (qmul (qdiv c.recent_purchases maxRecent) 2))
       (qmul (qdiv (min c.lifetime_spent maxSpent) maxSpent) (Rat.divInt 1 2))

/-- model of the scoring section of `fetchRealCollectorData` (network.ts lines
507-542): compute the three maxima floored at 1, overwrite each collector's
`score` with the one-decimal rounding of the weighted formula (and
`lifetime_spent` with its two-decimal rounding), then sort by score
descending. -/
def computeScores (collectorList : List CollectorStats) : List CollectorStats :=
  let maxNfts := maxMetric (collectorList.map (fun c => c.total_nfts))
  let maxRecent := maxMetric (collectorList.map (fun c => c.recent_purchases))
  let maxSpent := maxMetric (collectorList.map (fun c => c.lifetime_spent))
  let scored := collectorList.map (fun c =>
    { c with score := round1 (rawScore maxNfts maxRecent maxSpent c),
             lifetime_spent := round2 c.lifetime_spent })
  stableSort (fun a b => decide (b.score ≤ a.score)) scored

end NetworkService

/-! Frame preservation: which parts of a collector list the balancers leave
untouched. -/

/-- the collector fields a balancer must not change: address and score. -/
def frame (c : Collector) : String × ℚ := (c.address, c.score)

theorem frame_share_update (c : Collector) (s : ℚ) : frame { c with share := s } = frame c := rfl

theorem set_get_eq_self {α : Type _} :
    ∀ (l : List α) (n : ℕ) (a : α), l.get? n = some a → l.set n a = l := by
  intro l
  induction l with
  | nil => intro n a h; simp at h
  | cons b t ih =>
    intro n a h
    cases n with
    | zero => simp at h; simp [h]
    | succ m =>
      simp only [List.get?_cons_succ] at h
      simp [List.set, ih m a h]

theorem map_frame_set (r l : List Collector) (j : ℕ) (x v : Collector)
    (hm : r.map frame = l.map frame) (hx : l.get? j = some x) (hv : frame v = frame x) :
    (r.set j v).map frame = l.map frame := by
  rw [List.map_set, hm, hv]
  apply set_get_eq_self
  rw [List.get?_map, hx]
  rfl

theorem length_eq_of_map_frame_eq {r l : List Collector}
    (h : r.map frame = l.map frame) : r.length = l.length := by
  have := congrArg List.length h
  simpa using this

theorem setAt_frame (r l : List Collector) (i : ℤ) (v : Collector)
    (hm : r.map frame = l.map frame)
    (hpos : 0 ≤ i → ∀ y, l.get? i.toNat = some y → frame v = frame y) :
    (setAt r i v).map frame = l.map frame := by
  rw [setAt]
  split
  · exact hm
  · rename_i hneg
    have hge : 0 ≤ i := le_of_not_lt hneg
    rcases h : l.get? i.toNat with _ | y
    · have hle : l.length ≤ i.toNat := List.get?_eq_none.mp h
      have hlen : r.length = l.length := length_eq_of_map_frame_eq hm
      rw [List.set_eq_of_length_le (by omega)]
      exact hm
    · exact map_frame_set r l i.toNat y v hm h (hpos hge y h)

theorem fallbackStep_fold_frame (l : List Collector) (n : ℕ) (apc : ℚ) (lastLen : ℕ) :
    ∀ (pairs : List (ℕ × Collector)) (r : List Collector) (d : ℚ),
      r.map frame = l.map frame →
      (∀ p ∈ pairs, ∀ y,
        0 ≤ (l.length : ℤ) - (n : ℤ) + (p.1 : ℤ) →
        l.get? ((l.length : ℤ) - (n : ℤ) + (p.1 : ℤ)).toNat = some y → frame p.2 = frame y) →
      ((pairs.foldl (fallbackStep n apc lastLen) (r, d)).1).map frame = l.map frame := by
  intro pairs
  induction pairs with
  | nil => intro r d h _; simpa using h
  | cons p ps ih =>
    intro r d h hp
    simp only [List.foldl_cons]
    have hlen : r.length = l.length := length_eq_of_map_frame_eq h
    apply ih
    · simp only [fallbackStep]
      apply setAt_frame _ l _ _ h
      rw [hlen]
      intro hge y hy
      rw [frame_share_update]
      exact hp p (List.mem_cons_self p ps) y hge hy
    · intro q hq y hge hy
      exact hp q (List.mem_cons_of_mem p hq) y hge hy

theorem fallbackAdjust_frame (l : List Collector) (d : ℚ) :
    (fallbackAdjust l d).map frame = l.map frame := by
  rw [fallbackAdjust]
  apply fallbackStep_fold_frame l _ _ _ _ l d rfl
  intro p hp y hge hy
  obtain ⟨hlt, hx⟩ := List.mem_enum hp
  set n : ℕ := if HUNDREDTH < |d| then 2 else 1 with hn
  have hn2 : n = 2 ∨ n = 1 := by
    rw [hn]; split <;> simp
  have hlt2 : p.1 < l.length - (l.length - n) := by
    have := hlt
    rwa [List.length_drop] at this
  have hL : (l.length : ℤ) - (n : ℤ) + (p.1 : ℤ) = ((l.length - n) + p.1 : ℕ) := by
    rcases hn2 with h2 | h2 <;> rw [h2] <;> rw [h2] at hlt2 hge <;> omega
  have hgd : (l.drop (l.length - n))[p.1]? = some p.2 := by
    rw [List.getElem?_eq_getElem hlt, hx]
  have hget : l.get? (l.length - n + p.1) = some p.2 := by
    rw [List.get?_eq_getElem?, ← List.getElem?_drop]
    exact hgd
  rw [hL] at hy
  simp only [Int.toNat_ofNat] at hy
  rw [hget] at hy
  cases hy
  rfl

theorem groupAdjustStep_frame (ns : ℚ) (r : List Collector) (c : Collector) :
    (V2.groupAdjustStep ns r c).map frame = r.map frame := by
  rcases h : r.findIdx? (fun x => decide (x.address = c.address)) with _ | i
  · simp [V2.groupAdjustStep, h]
  · rcases hx : r.get? i with _ | x
    · have hx2 : r[i]? = none := by rw [← List.get?_eq_getElem?]; exact hx
      simp [V2.groupAdjustStep, h, hx, hx2]
    · have hx2 : r[i]? = some x := by rw [← List.get?_eq_getElem?]; exact hx
      simp only [V2.groupAdjustStep, h, hx, hx2]
      exact map_frame_set r r i x _ rfl hx (frame_share_update x ns)

theorem groupAdjust_fold_frame (ns : ℚ) :
    ∀ (gs : List Collector) (r : List Collector),
      ((gs.foldl (V2.groupAdjustStep ns) r)).map frame = r.map frame := by
  intro gs
  induction gs with
  | nil => intro r; rfl
  | cons g t ih =>
    intro r
    simp only [List.foldl_cons]
    rw [ih, groupAdjustStep_frame]

/-- the V2 balancer never removes, reorders or rewrites collectors: it only
changes `share` fields. -/
theorem v2_balanceShares_frame (cs : List Collector) (t : ℚ) :
    (V2.balanceShares cs t).map frame = cs.map frame := by
  simp only [V2.balanceShares]
  split
  · rfl
  · split
    · rfl
    · split
      · exact groupAdjust_fold_frame _ _ cs
      · exact fallbackAdjust_frame cs _

/-- the V1 balancer only changes `share` fields whenever the minimum-share
threshold is not the relaxed `0`. -/
theorem v1_balanceShares_frame (m : ℚ) (hm : m ≠ 0) (cs : List Collector) (t : ℚ) :
    (V1.balanceShares m cs t).map frame = cs.map frame := by
  simp only [V1.balanceShares]
  split
  · rfl
  split
  · rfl
  exact fallbackAdjust_frame cs _

/-! Membership-level frame containment, for the branches that may drop or
reorder collectors (the V1 relaxed-threshold branch and the allocator). -/

/-- every collector of `out` carries the address and score of some collector
of `src`. -/
def FrameSub (out src : List Collector) : Prop :=
  ∀ c ∈ out, ∃ c₀ ∈ src, frame c = frame c₀

theorem frameSub_refl (l : List Collector) : FrameSub l l :=
  fun c hc => ⟨c, hc, rfl⟩

theorem frameSub_trans {a b c : List Collector}
    (h₁ : FrameSub a b) (h₂ : FrameSub b c) : FrameSub a c := by
  intro x hx
  obtain ⟨y, hy, hxy⟩ := h₁ x hx
  obtain ⟨z, hz, hyz⟩ := h₂ y hy
  exact ⟨z, hz, hxy.trans hyz⟩

theorem frameSub_of_map_frame_eq {r l : List Collector}
    (h : r.map frame = l.map frame) : FrameSub r l := by
  intro c hc
  have hmem : frame c ∈ l.map frame := h ▸ List.mem_map_of_mem frame hc
  obtain ⟨c₀, hc₀, he⟩ := List.mem_map.mp hmem
  exact ⟨c₀, hc₀, he.symm⟩

theorem frameSub_map_share (l : List Collector) (f : Collector → ℚ) :
    FrameSub (l.map (fun c => { c with share := f c })) l := by
  intro c hc
  obtain ⟨c₀, hc₀, rfl⟩ := List.mem_map.mp hc
  exact ⟨c₀, hc₀, rfl⟩

theorem frameSub_of_sublist {r l : List Collector} (h : r.Sublist l) : FrameSub r l :=
  fun c hc => ⟨c, h.mem hc, rfl⟩

theorem mem_stableInsert (le : α → α → Bool) (a x : α) (l : List α) :
    x ∈ stableInsert le a l ↔ x = a ∨ x ∈ l := by
  induction l with
  | nil => simp [stableInsert]
  | cons b t ih =>
    simp only [stableInsert]
    split
    · simp only [List.mem_cons, ih]
      tauto
    · simp [List.mem_cons]

theorem mem_stableSort (le : α → α → Bool) (x : α) (l : List α) :
    x ∈ stableSort le l ↔ x ∈ l := by
  induction l with
  | nil => simp [stableSort]
  | cons b t ih =>
    simp only [stableSort, List.foldr] at ih ⊢
    rw [mem_stableInsert]
    simp [ih]

theorem frameSub_stableSort (le : Collector → Collector → Bool) (l : List Collector) :
    FrameSub (stableSort le l) l :=
  fun c hc => ⟨c, (mem_stableSort le c l).mp hc, rfl⟩

theorem trimLoop_sublist (t : ℚ) :
    ∀ (fuel : ℕ) (r : List Collector) (d : ℚ), (V1.trimLoop t fuel r d).1.Sublist r := by
  intro fuel
  induction fuel with
  | zero => intro r d; simp [V1.trimLoop]
  | succ n ih =>
    intro r d
    rw [V1.trimLoop]
    split
    · split
      · exact (ih _ _).trans (List.dropLast_sublist r)
      · exact List.Sublist.refl r
    · exact List.Sublist.refl r

theorem frameSub_enumFilterMap (p : ℕ × Collector → Bool) (l : List Collector) :
    FrameSub ((l.enum.filter p).map (fun ic => ic.2)) l := by
  intro c hc
  obtain ⟨ic, hic, hs⟩ := List.mem_map.mp hc
  obtain ⟨i, x⟩ := ic
  have hin := (List.mem_filter.mp hic).1
  obtain ⟨hlt, hx⟩ := List.mem_enum hin
  refine ⟨c, ?_, rfl⟩
  have : x ∈ l := hx ▸ List.getElem_mem hlt
  simpa [← hs] using this


theorem frameSub_adjustLast (r2 : List Collector) (d : ℚ) (src : List Collector)
    (h : FrameSub r2 src) :
    FrameSub (match r2.getLast? with
      | some lastC => r2.set (r2.length - 1) { lastC with share := round2 (qadd lastC.share d) }
      | none => r2) src := by
  rcases hl : r2.getLast? with _ | lastC
  · exact h
  · intro c hc
    rcases List.mem_or_eq_of_mem_set hc with hmem | rfl
    · exact h c hmem
    · obtain ⟨c₀, hc₀, he⟩ := h lastC (List.mem_of_getLast?_eq_some hl)
      exact ⟨c₀, hc₀, he⟩

/-- the V1 balancer, for any threshold, only produces collectors whose
address and score occur in the input. -/
theorem v1_balanceShares_frameSub (m : ℚ) (cs : List Collector) (t : ℚ) :
    FrameSub (V1.balanceShares m cs t) cs := by
  by_cases hm : m = 0
  · subst hm
    simp only [V1.balanceShares, if_true]
    split
    · exact frameSub_refl _
    split
    · exact frameSub_refl _
    have hbase : FrameSub ((V1.trimLoop t
        (stableSort (fun a b => decide (b.share ≤ a.share)) cs).length
        (stableSort (fun a b => decide (b.share ≤ a.share)) cs)
        (round2 (qsub t (shareSum cs)))).1) cs :=
      frameSub_trans (frameSub_of_sublist (trimLoop_sublist _ _ _ _))
        (frameSub_stableSort _ cs)
    set rd := V1.trimLoop t
        (stableSort (fun a b => decide (b.share ≤ a.share)) cs).length
        (stableSort (fun a b => decide (b.share ≤ a.share)) cs)
        (round2 (qsub t (shareSum cs))) with hrd
    have hmap : FrameSub (rd.1.map (fun c =>
        { c with share := round2 (qadd c.share (round2 (qdiv rd.2 (rd.1.length : ℚ)))) })) cs :=
      frameSub_trans (frameSub_map_share _ _) hbase
    split
    · exact frameSub_adjustLast _ _ _ hmap
    · exact hmap
  · exact frameSub_of_map_frame_eq (v1_balanceShares_frame m hm cs t)

/-- the V2 balancer only produces collectors whose address and score occur in
the input. -/
theorem v2_balanceShares_frameSub (cs : List Collector) (t : ℚ) :
    FrameSub (V2.balanceShares cs t) cs :=
  frameSub_of_map_frame_eq (v2_balanceShares_frame cs t)

theorem frameSub_rawWeightedShares (l : List Collector) (S t : ℚ) :
    FrameSub (rawWeightedShares l S t) l := by
  rw [rawWeightedShares]
  exact frameSub_map_share _ _

theorem validCollectors_address (creator : Option String) (cs : List Collector)
    (c : Collector) (hc : c ∈ validCollectors creator cs) :
    c.address ≠ BURN_ADDRESS ∧ some c.address ≠ creator := by
  rcases creator with _ | a
  · simp only [validCollectors, List.mem_filter, Bool.and_eq_true, decide_eq_true_eq,
      Bool.true_and] at hc
    exact ⟨hc.2, by intro h; cases h⟩
  · simp only [validCollectors, List.mem_filter, Bool.and_eq_true, decide_eq_true_eq] at hc
    refine ⟨hc.2.2, ?_⟩
    intro h
    exact hc.2.1 (Option.some.inj h)

/-- no collector produced by the allocator core carries the burn address or
the configured creator address, for any balancer that respects frames. -/
theorem core_mem_address (bal : List Collector → ℚ → List Collector)
    (hbal : ∀ cs t, FrameSub (bal cs t) cs)
    (creator : Option String) (cs : List Collector) (t : ℚ) (c : Collector)
    (hc : c ∈ calculateWeightedSharesCore bal creator cs t) :
    c.address ≠ BURN_ADDRESS ∧ some c.address ≠ creator := by
  have hsub : FrameSub (calculateWeightedSharesCore bal creator cs t)
      (validCollectors creator cs) := by
    simp only [calculateWeightedSharesCore]
    split
    · intro x hx
      exact absurd hx (List.not_mem_nil x)
    split
    · split
      · exact frameSub_trans (hbal _ _) (frameSub_trans (frameSub_map_share _ _)
          (frameSub_of_sublist (List.take_sublist _ _)))
      · exact frameSub_trans (hbal _ _) (frameSub_map_share _ _)
    · refine frameSub_trans (hbal _ _) ?_
      refine frameSub_trans (frameSub_rawWeightedShares _ _ _) ?_
      refine frameSub_trans (frameSub_enumFilterMap _ _) ?_
      refine frameSub_trans (frameSub_stableSort _ _) ?_
      exact frameSub_rawWeightedShares _ _ _
  obtain ⟨c₀, hc₀, he⟩ := hsub c hc
  have haddr : c.address = c₀.address := congrArg Prod.fst he
  have h₀ := validCollectors_address creator cs c₀ hc₀
  rw [haddr]
  exact h₀

/-! Claim theorems. -/

/-- C4 (amended): the V2 `balanceShares` always — and the V1 `balanceShares`
whenever the minimum-share threshold is nonzero — returns the same
collectors, with the same addresses and scores, in the same order, changing
at most the `share` fields; the V1 branch for the relaxed threshold
`currentMinShare = 0` instead re-sorts and may drop collectors (see the
counterexample). -/
theorem balanceShares_preserves_collectors (cs₁ cs₂ : List Collector)
    (t₁ t₂ m : ℚ) (hm : m ≠ 0) :
    (V2.balanceShares cs₁ t₁).map frame = cs₁.map frame ∧
    (V1.balanceShares m cs₂ t₂).map frame = cs₂.map frame :=
  ⟨v2_balanceShares_frame cs₁ t₁, v1_balanceShares_frame m hm cs₂ t₂⟩

theorem balanceShares_preserves_collectors_witness :
    (MIN_SHARE ≠ 0) ∧
    ((V2.balanceShares [⟨"a", 1, 3⟩, ⟨"b", 2, Rat.divInt 349 50⟩] 10).map frame
        = ([⟨"a", 1, 3⟩, ⟨"b", 2, Rat.divInt 349 50⟩] : List Collector).map frame ∧
     (V1.balanceShares MIN_SHARE [⟨"a", 1, 3⟩, ⟨"b", 2, Rat.divInt 349 50⟩] 10).map frame
        = ([⟨"a", 1, 3⟩, ⟨"b", 2, Rat.divInt 349 50⟩] : List Collector).map frame) :=
  ⟨by decide,
   balanceShares_preserves_collectors [⟨"a", 1, 3⟩, ⟨"b", 2, Rat.divInt 349 50⟩]
     [⟨"a", 1, 3⟩, ⟨"b", 2, Rat.divInt 349 50⟩] 10 10 MIN_SHARE (by decide)⟩

/-- C4 counterexample: in the relaxed-threshold mode (`currentMinShare = 0`,
reached through Allow Low Shares), the V1 `balanceShares` re-sorts the list:
four collectors entered in ascending share order come back reordered, so the
balancer does not always keep the input order. -/
theorem balanceShares_reorders_on_zero_threshold :
    (V1.balanceShares 0 [⟨"a", 1, 1⟩, ⟨"b", 2, 2⟩, ⟨"c", 3, 3⟩, ⟨"d", 4, 4⟩]
        (Rat.divInt 1005 100)).map (fun c => c.address) = ["d", "c", "b", "a"] ∧
    (["d", "c", "b", "a"] : List String) ≠ ["a", "b", "c", "d"] := by
  decide

/-- C10: no collector produced by `calculateWeightedShares` (either revision)
carries the burn address or the configured creator address: the allocator
filters both out before computing shares. -/
theorem calculateWeightedShares_excludes_burn_and_creator
    (creator : Option String) (m t₁ t₂ : ℚ) (cs₁ cs₂ : List Collector)
    (c₁ c₂ : Collector)
    (h₁ : c₁ ∈ V1.calculateWeightedShares creator m cs₁ t₁)
    (h₂ : c₂ ∈ V2.calculateWeightedShares creator cs₂ t₂) :
    (c₁.address ≠ BURN_ADDRESS ∧ some c₁.address ≠ creator) ∧
    (c₂.address ≠ BURN_ADDRESS ∧ some c₂.address ≠ creator) := by
  rw [V1.calculateWeightedShares] at h₁
  rw [V2.calculateWeightedShares] at h₂
  exact ⟨core_mem_address _ (fun cs t => v1_balanceShares_frameSub m cs t) creator cs₁ t₁ c₁ h₁,
    core_mem_address _ v2_balanceShares_frameSub creator cs₂ t₂ c₂ h₂⟩

theorem calculateWeightedShares_excludes_burn_and_creator_witness :
    ((⟨"a", 1, Rat.divInt 333 100⟩ : Collector)
        ∈ V1.calculateWeightedShares (some "cr") MIN_SHARE
          [⟨"a", 1, 0⟩, ⟨"b", 1, 0⟩, ⟨"c", 1, 0⟩] 10) ∧
    ((⟨"a", 1, Rat.divInt 334 100⟩ : Collector)
        ∈ V2.calculateWeightedShares (some "cr")
          [⟨"a", 1, 0⟩, ⟨"b", 1, 0⟩, ⟨"c", 1, 0⟩] 10) ∧
    (((⟨"a", 1, Rat.divInt 333 100⟩ : Collector).address ≠ BURN_ADDRESS ∧
      some (⟨"a", 1, Rat.divInt 333 100⟩ : Collector).address ≠ some "cr") ∧
     ((⟨"a", 1, Rat.divInt 334 100⟩ : Collector).address ≠ BURN_ADDRESS ∧
      some (⟨"a", 1, Rat.divInt 334 100⟩ : Collector).address ≠ some "cr")) :=
  ⟨by decide, by decide,
   calculateWeightedShares_excludes_burn_and_creator (some "cr") MIN_SHARE 10 10
     [⟨"a", 1, 0⟩, ⟨"b", 1, 0⟩, ⟨"c", 1, 0⟩] [⟨"a", 1, 0⟩, ⟨"b", 1, 0⟩, ⟨"c", 1, 0⟩]
     ⟨"a", 1, Rat.divInt 333 100⟩ ⟨"a", 1, Rat.divInt 334 100⟩ (by decide) (by decide)⟩

/-- C5 (amended): whenever the redistribute-up handler stores an adjusted
list, every collector whose input share was below `MIN_SHARE = 0.1` sits at
the same position in the output with share exactly `MIN_SHARE`; neither the
capped rank-weighted reduction pass nor the conditional residual pass touches
such a collector again. -/
theorem handleAllowLowShares_raises_to_min (selected : List Collector) (t : ℚ)
    (out : List Collector) (i : ℕ) (x y : Collector)
    (hout : handleAllowLowShares selected t = .adjusted out)
    (hx : selected.get? i = some x) (hy : out.get? i = some y)
    (hlow : x.share < MIN_SHARE) : y.share = MIN_SHARE := by
  simp only [handleAllowLowShares] at hout
  split at hout
  · simp at hout
  split at hout
  · simp at hout
  split at hout
  · split at hout
    · injection hout with hout
      subst hout
      rw [List.map_map, List.get?_map, hx] at hy
      injection hy with hy
      subst hy
      simp only [Function.comp_apply, if_pos hlow]
      rw [if_neg (lt_irrefl MIN_SHARE)]
    · injection hout with hout
      subst hout
      rw [List.get?_map, hx] at hy
      injection hy with hy
      subst hy
      simp only [if_pos hlow]
  · injection hout with hout
    subst hout
    rw [List.get?_map, hx] at hy
    injection hy with hy
    subst hy
    simp only [if_pos hlow]

theorem handleAllowLowShares_raises_to_min_witness :
    (handleAllowLowShares
        [⟨"a", 4, 4⟩, ⟨"b", 3, 3⟩, ⟨"c", 2, 2⟩, ⟨"d", 1, Rat.divInt 91 100⟩,
         ⟨"e", Rat.divInt 1 2, Rat.divInt 5 100⟩, ⟨"f", Rat.divInt 1 5, Rat.divInt 4 100⟩] 10
      = .adjusted
        [⟨"a", 4, Rat.divInt 396 100⟩, ⟨"b", 3, Rat.divInt 297 100⟩,
         ⟨"c", 2, Rat.divInt 198 100⟩, ⟨"d", 1, Rat.divInt 9 10⟩,
         ⟨"e", Rat.divInt 1 2, Rat.divInt 1 10⟩, ⟨"f", Rat.divInt 1 5, Rat.divInt 1 10⟩]) ∧
    ((⟨"e", Rat.divInt 1 2, Rat.divInt 1 10⟩ : Collector).share = MIN_SHARE) :=
  ⟨by decide,
   handleAllowLowShares_raises_to_min
     [⟨"a", 4, 4⟩, ⟨"b", 3, 3⟩, ⟨"c", 2, 2⟩, ⟨"d", 1, Rat.divInt 91 100⟩,
      ⟨"e", Rat.divInt 1 2, Rat.divInt 5 100⟩, ⟨"f", Rat.divInt 1 5, Rat.divInt 4 100⟩] 10
     [⟨"a", 4, Rat.divInt 396 100⟩, ⟨"b", 3, Rat.divInt 297 100⟩,
      ⟨"c", 2, Rat.divInt 198 100⟩, ⟨"d", 1, Rat.divInt 9 10⟩,
      ⟨"e", Rat.divInt 1 2, Rat.divInt 1 10⟩, ⟨"f", Rat.divInt 1 5, Rat.divInt 1 10⟩]
     4 ⟨"e", Rat.divInt 1 2, Rat.divInt 5 100⟩ ⟨"e", Rat.divInt 1 2, Rat.divInt 1 10⟩
     (by decide) (by decide) (by decide) (by decide)⟩

/-- C5 counterexample: the redistribute-up handler does not restore an exact
sum.  Six collectors summing exactly to the target `10.00` (scores
`4,3,2,1,0.5,0.2`, shares `4, 3, 2, 0.91, 0.05, 0.04`) leave
`handleAllowLowShares` with total `10.01`: the two low collectors are raised
by `0.11` in total while the rank-weighted roundings only remove `0.10`, and
the leftover `0.01` difference is below the `> 0.01` residual-pass trigger,
so no ShareBalancer re-run corrects it. -/
theorem handleAllowLowShares_sum_not_exact :
    handleAllowLowShares
        [⟨"a", 4, 4⟩, ⟨"b", 3, 3⟩, ⟨"c", 2, 2⟩, ⟨"d", 1, Rat.divInt 91 100⟩,
         ⟨"e", Rat.divInt 1 2, Rat.divInt 5 100⟩, ⟨"f", Rat.divInt 1 5, Rat.divInt 4 100⟩] 10
      = .adjusted
        [⟨"a", 4, Rat.divInt 396 100⟩, ⟨"b", 3, Rat.divInt 297 100⟩,
         ⟨"c", 2, Rat.divInt 198 100⟩, ⟨"d", 1, Rat.divInt 9 10⟩,
         ⟨"e", Rat.divInt 1 2, Rat.divInt 1 10⟩, ⟨"f", Rat.divInt 1 5, Rat.divInt 1 10⟩] ∧
    shareSum
        [⟨"a", 4, 4⟩, ⟨"b", 3, 3⟩, ⟨"c", 2, 2⟩, ⟨"d", 1, Rat.divInt 91 100⟩,
         ⟨"e", Rat.divInt 1 2, Rat.divInt 5 100⟩, ⟨"f", Rat.divInt 1 5, Rat.divInt 4 100⟩] = 10 ∧
    shareSum
        [⟨"a", 4, Rat.divInt 396 100⟩, ⟨"b", 3, Rat.divInt 297 100⟩,
         ⟨"c", 2, Rat.divInt 198 100⟩, ⟨"d", 1, Rat.divInt 9 10⟩,
         ⟨"e", Rat.divInt 1 2, Rat.divInt 1 10⟩, ⟨"f", Rat.divInt 1 5, Rat.divInt 1 10⟩]
      = Rat.divInt 1001 100 ∧
    (Rat.divInt 1001 100 : ℚ) ≠ 10 := by
  decide

theorem length_filter_add_length_filter_not (p : α → Bool) (l : List α) :
    (l.filter p).length + (l.filter (fun a => !(p a))).length = l.length := by
  induction l with
  | nil => simp
  | cons b t ih =>
    by_cases h : p b <;> simp [List.filter, h] <;> omega

/-- C6 (amended): the remove-below-threshold handler reports an error exactly
when fewer than the hard-coded `MIN_COLLECTORS = 3` collectors would survive;
`minCollectors` is not configurable, so a five-collector distribution with
one sub-threshold member is removed (and the allocator re-run), not refused. -/
theorem handleRemoveBelowThreshold_error_iff (creator : Option String)
    (selected : List Collector) (t : ℚ) :
    handleRemoveBelowThreshold creator selected t = .cannotRemove ↔
      (selected.filter (fun c => decide (MIN_SHARE ≤ c.share))).length < MIN_COLLECTORS := by
  have hsplit := length_filter_add_length_filter_not
    (fun c => decide (c.share < MIN_SHARE)) selected
  have hcong : selected.filter (fun c => !(decide (c.share < MIN_SHARE)))
      = selected.filter (fun c => decide (MIN_SHARE ≤ c.share)) := by
    apply List.filter_congr
    intro c _
    by_cases h : c.share < MIN_SHARE
    · simp [h, not_le.mpr h]
    · simp [h, not_lt.mp h]
  rw [hcong] at hsplit
  rw [handleRemoveBelowThreshold]
  split
  · rename_i hlt
    simp only [true_iff]
    omega
  · rename_i hge
    constructor
    · intro h
      cases h
    · intro h
      omega

/-- C6 counterexample: spec Scenario 3 (five collectors, one allocated below
the `0.1` threshold, `minCollectors = 5`) does not yield
`CannotMeetMinimumCollectorsError` in the code: `MIN_COLLECTORS` is fixed at
`3`, so the handler removes the `0.05` collector and re-runs the allocator on
the four survivors. -/
theorem handleRemoveBelowThreshold_scenario3_removes :
    handleRemoveBelowThreshold none
        [⟨"a", 4, 4⟩, ⟨"b", 3, 3⟩, ⟨"c", 2, 2⟩, ⟨"d", 1, Rat.divInt 95 100⟩,
         ⟨"e", Rat.divInt 1 2, Rat.divInt 5 100⟩] 10
      = .removed [⟨"a", 4, 4⟩, ⟨"b", 3, 3⟩, ⟨"c", 2, 2⟩, ⟨"d", 1, 1⟩] ∧
    RemoveBelowResult.removed [⟨"a", 4, 4⟩, ⟨"b", 3, 3⟩, ⟨"c", 2, 2⟩, ⟨"d", 1, 1⟩]
      ≠ RemoveBelowResult.cannotRemove := by
  decide

/-- C7 (amended): `validateSplits` checks collector count, sum tolerance and
per-share bounds in order, returning a single message for the first failing
check; it performs no address-uniqueness check, so the overall verdict is
exactly the conjunction of the three checks it does make. -/
theorem validateSplits_isValid_iff (selected : List Collector) (t m : ℚ) :
    (validateSplits selected t m).isValid = true ↔
      (MIN_COLLECTORS ≤ selected.length ∧ selected.length ≤ MAX_COLLECTORS ∧
       |shareSum selected - t| ≤ HUNDREDTH ∧
       ∀ c ∈ selected, m ≤ c.share ∧ c.share ≤ MAX_SHARE) := by
  simp only [validateSplits]
  split
  · rename_i h
    simp only [Bool.false_eq_true, false_iff]
    intro hcon
    omega
  split
  · rename_i h
    simp only [Bool.false_eq_true, false_iff]
    intro hcon
    omega
  split
  · rename_i h
    rw [qsub_eq] at h
    simp only [Bool.false_eq_true, false_iff]
    intro hcon
    exact absurd hcon.2.2.1 (not_le.mpr h)
  split
  · rename_i h
    simp only [Bool.false_eq_true, false_iff]
    intro hcon
    rw [List.any_eq_true] at h
    obtain ⟨c, hc, hcb⟩ := h
    rw [Bool.or_eq_true, decide_eq_true_eq, decide_eq_true_eq] at hcb
    obtain ⟨hm, hM⟩ := hcon.2.2.2 c hc
    rcases hcb with hlt | hgt
    · exact absurd hm (not_le.mpr hlt)
    · exact absurd hM (not_le.mpr hgt)
  · rename_i h1 h2 h3 h4
    simp only [true_iff]
    rw [qsub_eq] at h3
    refine ⟨by omega, by omega, le_of_not_lt h3, ?_⟩
    intro c hc
    rw [List.any_eq_true] at h4
    push_neg at h4
    have := h4 c hc
    simp only [ne_eq, Bool.or_eq_true, decide_eq_true_eq, not_or] at this
    exact ⟨le_of_not_lt this.1, le_of_not_lt this.2⟩

/-- C7 counterexample: the validator is not an all-violations reporter.  A
three-collector distribution with a duplicated address but correct count, sum
and bounds passes as valid (no uniqueness check exists), and a one-collector
distribution violating both the count check and the sum check returns only
the single minimum-collectors message. -/
theorem validateSplits_short_circuits :
    validateSplits [⟨"a", 1, 3⟩, ⟨"a", 1, 3⟩, ⟨"b", 1, 4⟩] 10 MIN_SHARE
      = ⟨true, .noMessage⟩ ∧
    validateSplits [⟨"x", 1, 6⟩] 10 MIN_SHARE = ⟨false, .minCollectorsRequired⟩ ∧
    HUNDREDTH < |qsub (shareSum [⟨"x", 1, 6⟩]) 10| := by
  decide

theorem le_foldl_max : ∀ (l : List ℚ) (b : ℚ), b ≤ l.foldl max b := by
  intro l
  induction l with
  | nil => intro b; exact le_refl b
  | cons a t ih =>
    intro b
    simp only [List.foldl_cons]
    exact le_trans (le_max_left b a) (ih (max b a))

theorem maxMetric_ge_one (l : List ℚ) : 1 ≤ NetworkService.maxMetric l := by
  rw [NetworkService.maxMetric]
  exact le_foldl_max l 1

theorem rawScore_nonneg (m1 m2 m3 : ℚ) (c : CollectorStats)
    (h1 : 1 ≤ m1) (h2 : 1 ≤ m2) (h3 : 1 ≤ m3)
    (hn : 0 ≤ c.total_nfts) (hsp : 0 ≤ c.lifetime_spent) (hr : 0 ≤ c.recent_purchases) :
    0 ≤ NetworkService.rawScore m1 m2 m3 c := by
  rw [NetworkService.rawScore, qadd_eq, qadd_eq, qmul_eq, qmul_eq, qmul_eq,
    qdiv_eq, qdiv_eq, qdiv_eq]
  have hp1 : (0:ℚ) ≤ m1 := le_trans zero_le_one h1
  have hp2 : (0:ℚ) ≤ m2 := le_trans zero_le_one h2
  have hp3 : (0:ℚ) ≤ m3 := le_trans zero_le_one h3
  have hw1 : (0:ℚ) ≤ Rat.divInt 5 2 := by
    rw [Rat.divInt_eq_div]; norm_num
  have hw3 : (0:ℚ) ≤ Rat.divInt 1 2 := by
    rw [Rat.divInt_eq_div]; norm_num
  have hmin : (0:ℚ) ≤ min c.lifetime_spent m3 := le_min hsp hp3
  have t1 : (0:ℚ) ≤ c.total_nfts / m1 * Rat.divInt 5 2 :=
    mul_nonneg (div_nonneg hn hp1) hw1
  have t2 : (0:ℚ) ≤ c.recent_purchases / m2 * 2 :=
    mul_nonneg (div_nonneg hr hp2) (by norm_num)
  have t3 : (0:ℚ) ≤ min c.lifetime_spent m3 / m3 * Rat.divInt 1 2 :=
    mul_nonneg (div_nonneg hmin hp3) hw3
  exact add_nonneg (add_nonneg t1 t2) t3

theorem round1_nonneg (x : ℚ) (hx : 0 ≤ x) : 0 ≤ round1 x := by
  rw [round1_eq]
  apply div_nonneg _ (by norm_num)
  have hz : (0:ℤ) ≤ round (x * 10) := by
    rw [round_eq]
    have h0 : (0:ℤ) = ⌊(1:ℚ)/2⌋ := by norm_num
    rw [h0]
    apply Int.floor_mono
    linarith
  exact_mod_cast hz

/-- C8 (amended): the score calculator computes each collector's score with
the weighted formula over metrics normalised by their set-wide maxima (each
floored at 1), but then stores the one-decimal rounding of that value — the
rounded score replaces the full-precision one for all further use — and every
stored score is non-negative when the raw metrics are. -/
theorem computeScores_rounds_and_nonneg (l : List CollectorStats)
    (s c : CollectorStats)
    (hnodup : (l.map (fun x => x.address)).Nodup)
    (hs : s ∈ l) (hc : c ∈ NetworkService.computeScores l)
    (haddr : c.address = s.address)
    (hnn : ∀ x ∈ l, 0 ≤ x.total_nfts ∧ 0 ≤ x.lifetime_spent ∧ 0 ≤ x.recent_purchases) :
    c.score = round1 (NetworkService.rawScore
      (NetworkService.maxMetric (l.map (fun x => x.total_nfts)))
      (NetworkService.maxMetric (l.map (fun x => x.recent_purchases)))
      (NetworkService.maxMetric (l.map (fun x => x.lifetime_spent))) s) ∧
    0 ≤ c.score := by
  simp only [NetworkService.computeScores] at hc
  rw [mem_stableSort] at hc
  obtain ⟨u, hu, rfl⟩ := List.mem_map.mp hc
  have hueq : u = s := by
    apply List.inj_on_of_nodup_map hnodup hu hs
    exact haddr
  subst hueq
  obtain ⟨hn, hsp, hr⟩ := hnn u hu
  constructor
  · rfl
  · exact round1_nonneg _ (rawScore_nonneg _ _ _ u
      (maxMetric_ge_one _) (maxMetric_ge_one _) (maxMetric_ge_one _) hn hsp hr)

theorem computeScores_rounds_and_nonneg_witness :
    ((⟨"A", 1, 0, 0, Rat.divInt 4 5⟩ : CollectorStats)
        ∈ NetworkService.computeScores [⟨"A", 1, 0, 0, 0⟩, ⟨"B", 3, 0, 0, 0⟩]) ∧
    ((⟨"A", 1, 0, 0, Rat.divInt 4 5⟩ : CollectorStats).score
        = round1 (NetworkService.rawScore
          (NetworkService.maxMetric
            (([⟨"A", 1, 0, 0, 0⟩, ⟨"B", 3, 0, 0, 0⟩] : List CollectorStats).map
              (fun x => x.total_nfts)))
          (NetworkService.maxMetric
            (([⟨"A", 1, 0, 0, 0⟩, ⟨"B", 3, 0, 0, 0⟩] : List CollectorStats).map
              (fun x => x.recent_purchases)))
          (NetworkService.maxMetric
            (([⟨"A", 1, 0, 0, 0⟩, ⟨"B", 3, 0, 0, 0⟩] : List CollectorStats).map
              (fun x => x.lifetime_spent))) ⟨"A", 1, 0, 0, 0⟩) ∧
      0 ≤ (⟨"A", 1, 0, 0, Rat.divInt 4 5⟩ : CollectorStats).score) :=
  ⟨by decide,
   computeScores_rounds_and_nonneg [⟨"A", 1, 0, 0, 0⟩, ⟨"B", 3, 0, 0, 0⟩]
     ⟨"A", 1, 0, 0, 0⟩ ⟨"A", 1, 0, 0, Rat.divInt 4 5⟩
     (by decide) (by decide) (by decide) (by decide) (by decide)⟩

/-- C8 counterexample: full precision is not retained internally.  For two
collectors holding 1 and 3 items and no other activity, the first one's
weighted score is `(1/3) * 2.5 = 5/6`, but `computeScores` stores the rounded
`0.8 = 4/5`, and `4/5 ≠ 5/6`: every later consumer, including share
allocation, sees only the rounded value. -/
theorem computeScores_discards_precision :
    NetworkService.computeScores [⟨"A", 1, 0, 0, 0⟩, ⟨"B", 3, 0, 0, 0⟩]
      = [⟨"B", 3, 0, 0, Rat.divInt 5 2⟩, ⟨"A", 1, 0, 0, Rat.divInt 4 5⟩] ∧
    NetworkService.rawScore 3 1 1 ⟨"A", 1, 0, 0, 0⟩ = Rat.divInt 5 6 ∧
    (Rat.divInt 4 5 : ℚ) ≠ Rat.divInt 5 6 := by
  decide

theorem round2_mono (x y : ℚ) (h : x ≤ y) : round2 x ≤ round2 y := by
  rw [round2_eq, round2_eq]
  have hr : round (x * 100) ≤ round (y * 100) := by
    rw [round_eq, round_eq]
    apply Int.floor_mono
    linarith
  have hc : ((round (x * 100) : ℤ) : ℚ) ≤ ((round (y * 100) : ℤ) : ℚ) := by
    exact_mod_cast hr
  linarith

/-- C9 (amended): the raw proportional allocation is monotone — with a
positive total score and a non-negative target, a collector whose score is at
least another's receives at least the other's two-decimal-rounded raw share.
The balancer's final one-cent correction can break the relation on the final
output (see the counterexample). -/
theorem rawWeightedShares_monotone (cs : List Collector) (S t : ℚ) (i j : ℕ)
    (hS : 0 < S) (ht : 0 ≤ t) (hi : i < cs.length) (hj : j < cs.length)
    (hscore : (cs.getD j ⟨"", 0, 0⟩).score ≤ (cs.getD i ⟨"", 0, 0⟩).score) :
    ((rawWeightedShares cs S t).getD j ⟨"", 0, 0⟩).share
      ≤ ((rawWeightedShares cs S t).getD i ⟨"", 0, 0⟩).share := by
  rw [rawWeightedShares]
  have hmi : i < (cs.map (fun c =>
      { c with share := round2 (qmul (qdiv c.score S) t) })).length := by
    simpa using hi
  have hmj : j < (cs.map (fun c =>
      { c with share := round2 (qmul (qdiv c.score S) t) })).length := by
    simpa using hj
  rw [List.getD_eq_getElem _ _ hmi, List.getD_eq_getElem _ _ hmj,
    List.getElem_map, List.getElem_map]
  rw [List.getD_eq_getElem _ _ hi, List.getD_eq_getElem _ _ hj] at hscore
  apply round2_mono
  rw [qmul_eq, qmul_eq, qdiv_eq, qdiv_eq]
  apply mul_le_mul_of_nonneg_right _ ht
  exact (div_le_div_iff_of_pos_right hS).mpr hscore

theorem rawWeightedShares_monotone_witness :
    ((0:ℚ) < 3) ∧ ((0:ℚ) ≤ 10) ∧
    ((([⟨"p", 2, 0⟩, ⟨"q", 1, 0⟩] : List Collector).getD 1 ⟨"", 0, 0⟩).score
        ≤ (([⟨"p", 2, 0⟩, ⟨"q", 1, 0⟩] : List Collector).getD 0 ⟨"", 0, 0⟩).score) ∧
    (((rawWeightedShares [⟨"p", 2, 0⟩, ⟨"q", 1, 0⟩] 3 10).getD 1 ⟨"", 0, 0⟩).share
        ≤ ((rawWeightedShares [⟨"p", 2, 0⟩, ⟨"q", 1, 0⟩] 3 10).getD 0 ⟨"", 0, 0⟩).share) :=
  ⟨by decide, by decide, by decide,
   rawWeightedShares_monotone [⟨"p", 2, 0⟩, ⟨"q", 1, 0⟩] 3 10 0 1
     (by decide) (by decide) (by decide) (by decide) (by decide)⟩

/-- C9 counterexample: final-output monotonicity fails.  Scores
`1.0002 > 1.0001 > 1.0` against target `10` all round to raw share `3.33`
(sum `9.99`), and the tsx balancer hands the missing cent to the last listed
collector: the lowest-scored collector finishes with `3.34`, strictly above
the strictly-higher-scored first collector's `3.33`. -/
theorem pipeline_monotonicity_fails :
    V1.calculateWeightedShares none MIN_SHARE
        [⟨"a", Rat.divInt 10002 10000, 0⟩, ⟨"b", Rat.divInt 10001 10000, 0⟩, ⟨"c", 1, 0⟩] 10
      = [⟨"a", Rat.divInt 5001 5000, Rat.divInt 333 100⟩,
         ⟨"b", Rat.divInt 10001 10000, Rat.divInt 333 100⟩,
         ⟨"c", 1, Rat.divInt 167 50⟩] ∧
    ((1:ℚ) < Rat.divInt 5001 5000) ∧ ((Rat.divInt 333 100 : ℚ) < Rat.divInt 167 50) := by
  decide

/-- C1 (failing input): three equal-score collectors with
`targetTotalShare = 10.01`.  Each raw share rounds to `3.34` (sum `10.02`,
rounded difference `-0.01`), and the grouped branch of the V2 balancer ADDS
`0.01` to a member of the `3.34` group instead of subtracting it, landing on
a final sum of `10.03`: `0.02` away from the target, violating the `< 0.01`
sum invariant the balancer exists to enforce. -/
theorem sum_invariant_violated :
    (V2.calculateWeightedShares none [⟨"a", 1, 0⟩, ⟨"b", 1, 0⟩, ⟨"c", 1, 0⟩]
        (Rat.divInt 1001 100)).map (fun c => c.share)
      = [Rat.divInt 67 20, Rat.divInt 167 50, Rat.divInt 167 50] ∧
    shareSum (V2.calculateWeightedShares none [⟨"a", 1, 0⟩, ⟨"b", 1, 0⟩, ⟨"c", 1, 0⟩]
        (Rat.divInt 1001 100)) = Rat.divInt 1003 100 ∧
    ¬ (|qsub (Rat.divInt 1003 100) (Rat.divInt 1001 100)| < HUNDREDTH) := by
  decide

/-- C2 counterexample: Scenario 1's predicted raw shares are wrong:
`(0.85 / 1.95) * 10` rounds to `4.36`, not `4.25`, so the allocator produces
`[4.36, 3.33, 2.31]` (already summing to `10.00`), not `[4.25, 3.25, 2.25]`
(summing to `9.75`). -/
theorem scenario1_raw_shares_not_as_claimed :
    (rawWeightedShares
        [⟨"a", Rat.divInt 85 100, 0⟩, ⟨"b", Rat.divInt 65 100, 0⟩,
         ⟨"c", Rat.divInt 45 100, 0⟩]
        (scoreSum [⟨"a", Rat.divInt 85 100, 0⟩, ⟨"b", Rat.divInt 65 100, 0⟩,
         ⟨"c", Rat.divInt 45 100, 0⟩]) 10).map (fun c => c.share)
      = [Rat.divInt 436 100, Rat.divInt 333 100, Rat.divInt 231 100] ∧
    ([Rat.divInt 436 100, Rat.divInt 333 100, Rat.divInt 231 100] : List ℚ)
      ≠ [Rat.divInt 425 100, Rat.divInt 325 100, Rat.divInt 225 100] := by
  decide

/-- C2 (amended): for scores `[0.85, 0.65, 0.45]` and target `10.0` the
allocator computes each raw share as `(score / 1.95) * 10` rounded to two
decimals, yielding `[4.36, 3.33, 2.31]` with sum exactly `10.00`; the
balancer finds `|difference| < 0.01` and returns the allocation unchanged. -/
theorem scenario1_actual :
    V1.calculateWeightedShares none MIN_SHARE
        [⟨"a", Rat.divInt 85 100, 0⟩, ⟨"b", Rat.divInt 65 100, 0⟩,
         ⟨"c", Rat.divInt 45 100, 0⟩] 10
      = rawWeightedShares
          [⟨"a", Rat.divInt 85 100, 0⟩, ⟨"b", Rat.divInt 65 100, 0⟩,
           ⟨"c", Rat.divInt 45 100, 0⟩]
          (scoreSum [⟨"a", Rat.divInt 85 100, 0⟩, ⟨"b", Rat.divInt 65 100, 0⟩,
           ⟨"c", Rat.divInt 45 100, 0⟩]) 10 ∧
    (V1.calculateWeightedShares none MIN_SHARE
        [⟨"a", Rat.divInt 85 100, 0⟩, ⟨"b", Rat.divInt 65 100, 0⟩,
         ⟨"c", Rat.divInt 45 100, 0⟩] 10).map (fun c => c.share)
      = [Rat.divInt 436 100, Rat.divInt 333 100, Rat.divInt 231 100] ∧
    shareSum (V1.calculateWeightedShares none MIN_SHARE
        [⟨"a", Rat.divInt 85 100, 0⟩, ⟨"b", Rat.divInt 65 100, 0⟩,
         ⟨"c", Rat.divInt 45 100, 0⟩] 10) = 10 := by
  decide

/-- C3 (failing input): five collectors each holding share `2.01` against
target `10.00`.  The rounded difference is `-0.05` and the `2.01` group has
the required `ceil(0.05 / 0.01) = 5` members; the claim (and the spec) says
the balancer applies `-0.01` to five members, consuming the difference
exactly (sum `10.00`).  The code instead sets each adjusted member to
`toFixed2(targetShare + 0.01) = 2.02` regardless of the sign, raising the sum
to `10.10`. -/
theorem group_adjustment_ignores_sign :
    round2 (qsub 10 (shareSum
        [⟨"a", 5, Rat.divInt 201 100⟩, ⟨"b", 4, Rat.divInt 201 100⟩,
         ⟨"c", 3, Rat.divInt 201 100⟩, ⟨"d", 2, Rat.divInt 201 100⟩,
         ⟨"e", 1, Rat.divInt 201 100⟩])) = Rat.divInt (-5) 100 ∧
    (V2.balanceShares
        [⟨"a", 5, Rat.divInt 201 100⟩, ⟨"b", 4, Rat.divInt 201 100⟩,
         ⟨"c", 3, Rat.divInt 201 100⟩, ⟨"d", 2, Rat.divInt 201 100⟩,
         ⟨"e", 1, Rat.divInt 201 100⟩] 10).map (fun c => c.share)
      = [Rat.divInt 101 50, Rat.divInt 101 50, Rat.divInt 101 50,
         Rat.divInt 101 50, Rat.divInt 101 50] ∧
    shareSum (V2.balanceShares
        [⟨"a", 5, Rat.divInt 201 100⟩, ⟨"b", 4, Rat.divInt 201 100⟩,
         ⟨"c", 3, Rat.divInt 201 100⟩, ⟨"d", 2, Rat.divInt 201 100⟩,
         ⟨"e", 1, Rat.divInt 201 100⟩] 10) = Rat.divInt 101 10 := by
  decide
